import Mathlib

/-!
Shallow embedding of the MothurAmpliconTablePlot core
(`src/pylib/taxonomy.py` and `src/pylib/shared_table.py`, plus the call
sites in `src/get_mothur_taxonomy_abundance.py`).

Strings are modelled as `List Char` (`Str`); Python exceptions are
modelled by the inductive `Err` and fallible code returns `Except Err _`.
Numeric table entries are modelled as rationals (`ℚ`): the source keeps
integer counts and float abundances in numpy arrays, and all operations
the claims touch are exact field arithmetic.
-/

/-- Strings of the source program, modelled as lists of characters. -/
abbrev Str := List Char

/-- Coerce a Lean string literal to the `Str` model. -/
def cs (s : String) : Str := s.data

/-- Python exceptions raised by the embedded code, named after the
spec's error taxonomy where it gives a name:
`formatError` = `ValueError` from `MothurTaxonomy.from_str` (spec: FormatError);
`invalidRankError` = `ValueError` from `MothurLineage._get_by_name` (spec: InvalidRankError);
`lookupError` = `KeyError` (a `LookupError` subclass) from `otu_tax_dict[o]`;
`indexError` = `IndexError` from `self.RANK[_from]`;
`typeError` = `TypeError` from `len(ncol)` with `ncol` an `int`;
`valueError` = `ValueError` for an invalid sort method name. -/
inductive Err where
  | formatError
  | invalidRankError
  | lookupError
  | indexError
  | typeError
  | valueError
  deriving DecidableEq, Repr

/-- Model of Python's `\d` digit class (ASCII digits). -/
def isDigitC (c : Char) : Bool := '0' ≤ c && c ≤ '9'

/-- Value of one decimal digit character. -/
def digitVal (c : Char) : Nat := c.toNat - 48

/-- `int(...)` on a decimal digit string. -/
def digitsToNat (l : Str) : Nat := l.foldl (fun acc c => acc * 10 + digitVal c) 0

/-- Fuel-driven helper computing decimal digits (structural recursion
so that concrete values reduce in the kernel). -/
def natDigitsAux : Nat → Nat → Str
  | 0, _ => []
  | fuel + 1, n =>
    if n < 10 then [Char.ofNat (48 + n)]
    else natDigitsAux fuel (n / 10) ++ [Char.ofNat (48 + n % 10)]

/-- Canonical decimal digits of a natural number, as printed by
Python's `"%u"` format. -/
def natDigits (n : Nat) : Str := natDigitsAux (n + 1) n

theorem natDigitsAux_irrel :
    ∀ (n f1 f2 : Nat), n < f1 → n < f2 → natDigitsAux f1 n = natDigitsAux f2 n := by
  intro n
  induction n using Nat.strong_induction_on with
  | _ n ih =>
    intro f1 f2 h1 h2
    match f1, f2 with
    | 0, _ => omega
    | _ + 1, 0 => omega
    | g1 + 1, g2 + 1 =>
      simp only [natDigitsAux]
      by_cases h : n < 10
      · simp [h]
      · simp only [if_neg h]
        have hd : n / 10 < n := Nat.div_lt_self (by omega) (by omega)
        rw [ih (n / 10) hd g1 g2 (by omega) (by omega)]

theorem natDigitsAux_succ (n : Nat) : natDigitsAux (n + 1) n =
    if n < 10 then [Char.ofNat (48 + n)]
    else natDigitsAux n (n / 10) ++ [Char.ofNat (48 + n % 10)] := rfl

/-- The defining equation of `natDigits` as a single-step unfolding. -/
theorem natDigits_eq (n : Nat) : natDigits n =
    if n < 10 then [Char.ofNat (48 + n)]
    else natDigits (n / 10) ++ [Char.ofNat (48 + n % 10)] := by
  rw [show natDigits n = natDigitsAux (n + 1) n from rfl, natDigitsAux_succ]
  by_cases h : n < 10
  · simp [h]
  · simp only [if_neg h]
    have hd : n / 10 < n := Nat.div_lt_self (by omega) (by omega)
    congr 1
    exact natDigitsAux_irrel (n / 10) n (n / 10 + 1) (by omega) (by omega)

/-- `MothurTaxonomy`: one `(name, bootstrap)` pair plus the optional
unique-name resolution state (`_uniq_name` attribute, absent until
`set_unique_taxon_name` is called). -/
structure MTaxon where
  taxon_name : Str
  bootstrap : Nat
  uniq_name : Option Str
  deriving DecidableEq, Repr

/-- `MothurTaxonomy.unique_taxon_name`:
`getattr(self, "_uniq_name", None) or self.taxon_name`
(a `None` or empty `_uniq_name` falls back to the raw name). -/
def uniqueTaxonName (t : MTaxon) : Str :=
  match t.uniq_name with
  | none => t.taxon_name
  | some u => if u = [] then t.taxon_name else u

/-- Core of the regex `^(.*)\((\d+)\)$`, working on the reversed
string: the greedy `.*` takes everything up to the last `(` that is
followed only by digits and the final `)`; `.` does not match a
newline, so a name containing `'\n'` fails. -/
def parseCoreRev : Str → Option (Str × Nat)
  | ')' :: rest =>
    let ds := rest.takeWhile isDigitC
    if ds = [] then none
    else
      match rest.drop ds.length with
      | '(' :: nrev =>
        if nrev.contains '\n' then none
        else some (nrev.reverse, digitsToNat ds.reverse)
      | _ => none
  | _ => none

/-- Match a taxon string against `^(.*)\((\d+)\)$`, yielding the name
and the confidence value. -/
def parseCore (l : Str) : Option (Str × Nat) := parseCoreRev l.reverse

/-- `MothurTaxonomy.from_str`: an empty string yields the empty taxon
with bootstrap 0; otherwise the string must match `^(.*)\((\d+)\)$`
(Python's `$` also matches just before one trailing newline) or a
`ValueError` (spec: FormatError) is raised. -/
def taxFromStr (l : Str) : Except Err MTaxon :=
  if l = [] then .ok ⟨[], 0, none⟩
  else
    let core := if l.getLast? = some '\n' then l.dropLast else l
    match parseCore core with
    | some (n, c) => .ok ⟨n, c, none⟩
    | none => .error .formatError

/-- `MothurTaxonomy.to_str`: `"%s(%u)" % (taxon_name, bootstrap)`. -/
def taxToStr (t : MTaxon) : Str := t.taxon_name ++ '(' :: natDigits t.bootstrap ++ [')']

/-- `MothurLineage.RANK`. -/
def RANK : List Str :=
  [cs "kingdom", cs "phylum", cs "class", cs "order", cs "family", cs "genus", cs "species"]

/-- Index lookup in a list of rank names (`RANK_ID`). -/
def idxOfAux (s : Str) (i : Nat) : List Str → Option Nat
  | [] => none
  | r :: rest => if r = s then some i else idxOfAux s (i + 1) rest

/-- `MothurLineage.RANK_ID` lookup: rank name to rank id. -/
def rankIdOf (s : Str) : Option Nat := idxOfAux s 0 RANK

/-- A lineage: `MothurLineage` is a `list` of `MothurTaxonomy`. -/
abbrev Lineage := List MTaxon

/-- `MothurLineage._get_by_id`: the taxon when `rank_id < self.depth`,
otherwise `None`. -/
def getById (l : Lineage) (i : Nat) : Option MTaxon :=
  if i < l.length then l.get? i else none

/-- The rank selector: `get_taxon_by_rank` accepts an `int` or a `str`. -/
inductive RankSel where
  | byId : Nat → RankSel
  | byName : Str → RankSel
  deriving DecidableEq, Repr

/-- `MothurLineage.get_taxon_by_rank`: by id, or by name via `RANK_ID`
(raising `ValueError`, the spec's InvalidRankError, for an unknown name). -/
def getTaxonByRank (l : Lineage) (r : RankSel) : Except Err (Option MTaxon) :=
  match r with
  | .byId i => .ok (getById l i)
  | .byName s =>
    match rankIdOf s with
    | none => .error .invalidRankError
    | some i => .ok (getById l i)

/-- The literal prefix tested by `taxon.taxon_name.startswith("uncultured")`. -/
def uncPrefix : Str := cs "uncultured"

/-- The unique name computed for an "uncultured" taxon:
`(_last_known + "_" + self.RANK[_from]) if _last_known else "unknown"`.
Python evaluates the condition first, so `RANK[_from]` (and hence its
possible `IndexError`) is reached only when `_last_known` is truthy. -/
def mkUniqName (lk : Option Str) (i : Nat) : Except Err Str :=
  match lk with
  | none => .ok (cs "unknown")
  | some s =>
    if s = [] then .ok (cs "unknown")
    else
      match RANK.get? i with
      | none => .error .indexError
      | some rn => .ok (s ++ cs "_" ++ rn)

/-- `MothurLineage.set_unique_taxon_names`, written structurally: the
source recurses on `_from`, stopping at the first rank whose taxon is
`None` (past the depth) or falsy (empty name); taxa after that point are
left untouched. -/
def resolveFrom (i : Nat) (lk : Option Str) : Lineage → Except Err Lineage
  | [] => .ok []
  | t :: rest =>
    if t.taxon_name = [] then .ok (t :: rest)
    else if uncPrefix.isPrefixOf t.taxon_name then
      match mkUniqName lk i with
      | .error e => .error e
      | .ok u =>
        match resolveFrom (i + 1) lk rest with
        | .error e => .error e
        | .ok rest' => .ok ({ t with uniq_name := some u } :: rest')
    else
      match resolveFrom (i + 1) (some t.taxon_name) rest with
      | .error e => .error e
      | .ok rest' => .ok (t :: rest')

/-- Python `s.rstrip(";")`. -/
def rstripSemi (l : Str) : Str := (l.reverse.dropWhile (fun c => c == ';')).reverse

/-- Python `s.split(";")` (on the already-stripped string): note that
splitting the empty string yields `[""]`. -/
def splitSemi : Str → List Str
  | [] => [[]]
  | c :: rest =>
    if c = ';' then [] :: splitSemi rest
    else
      match splitSemi rest with
      | [] => [[c]]
      | h :: t => (c :: h) :: t

/-- The list comprehension `[MothurTaxonomy.from_str(s) for s in sp]`:
left to right, first exception wins. -/
def parseTaxa : List Str → Except Err (List MTaxon)
  | [] => .ok []
  | x :: rest =>
    match taxFromStr x with
    | .error e => .error e
    | .ok t =>
      match parseTaxa rest with
      | .error e => .error e
      | .ok ts => .ok (t :: ts)

/-- `MothurLineage.from_str`: strip all trailing semicolons, split on
semicolons, parse each segment, then run `set_unique_taxon_names`. -/
def lineageFromStr (l : Str) : Except Err Lineage :=
  match parseTaxa (splitSemi (rstripSemi l)) with
  | .error e => .error e
  | .ok ts => resolveFrom 0 none ts

/-- `";".join(...)` over already-rendered taxa. -/
def joinSemi : List Str → Str
  | [] => []
  | [x] => x
  | x :: y :: rest => x ++ ';' :: joinSemi (y :: rest)

/-- `MothurLineage.to_str`: semicolon-join of the taxon strings plus the
final semicolon. -/
def lineageToStr (ts : Lineage) : Str := joinSemi (ts.map taxToStr) ++ [';']

deriving instance DecidableEq for Except

/-! ### Helper lemmas on the string utilities -/

theorem rstripSemi_append_semi (s : Str) : rstripSemi (s ++ [';']) = rstripSemi s := by
  simp [rstripSemi, List.dropWhile]

theorem rstripSemi_append_replicate (s : Str) (k : Nat) :
    rstripSemi (s ++ List.replicate k ';') = rstripSemi s := by
  induction k generalizing s with
  | zero => simp
  | succ n ih =>
    have h : s ++ List.replicate (n + 1) ';' = (s ++ [';']) ++ List.replicate n ';' := by
      simp [List.replicate_succ]
    rw [h, ih, rstripSemi_append_semi]

theorem idxOfAux_eq_none_of_not_mem (s : Str) (L : List Str) (h : s ∉ L) :
    ∀ i, idxOfAux s i L = none := by
  induction L with
  | nil => intro i; rfl
  | cons r rest ih =>
    intro i
    have hr : r ≠ s := fun he => h (he ▸ List.mem_cons_self r rest)
    have hrest : s ∉ rest := fun hm => h (List.mem_cons_of_mem r hm)
    simp [idxOfAux, hr, ih hrest]

theorem getById_eq_none_of_le (l : Lineage) (i : Nat) (h : l.length ≤ i) :
    getById l i = none := by
  simp [getById, Nat.not_lt_of_le h]

/-! ### Claim C10 -/

/-- C10: for every string `s`, parsing `s` and parsing `s ++ ";"` as a
lineage give the same result (the parser strips all trailing semicolons
before splitting, so the mandatory trailing semicolon is in fact
optional, and any number of extra trailing semicolons changes nothing —
in particular they are accepted without error whenever `s` parses). -/
theorem claimC10 :
    (∀ s : Str, lineageFromStr (s ++ cs ";") = lineageFromStr s) ∧
    (∀ (s : Str) (k : Nat), lineageFromStr (s ++ List.replicate k ';') = lineageFromStr s) := by
  constructor
  · intro s
    show lineageFromStr (s ++ [';']) = lineageFromStr s
    unfold lineageFromStr
    rw [rstripSemi_append_semi]
  · intro s k
    unfold lineageFromStr
    rw [rstripSemi_append_replicate]

/-! ### Claim C8 -/

/-- C8: looking a taxon up by a rank name outside the fixed rank
enumeration fails with the spec's InvalidRankError (the source's
`ValueError` from `_get_by_name`), while looking up by an integer rank
id at or past the lineage's depth returns the absent taxon (`none`) and
never raises. -/
theorem claimC8 :
    (∀ (l : Lineage) (s : Str), s ∉ RANK →
      getTaxonByRank l (.byName s) = .error .invalidRankError) ∧
    (∀ (l : Lineage) (i : Nat), l.length ≤ i →
      getTaxonByRank l (.byId i) = .ok none) := by
  constructor
  · intro l s hs
    simp [getTaxonByRank, rankIdOf, idxOfAux_eq_none_of_not_mem s RANK hs]
  · intro l i hi
    simp [getTaxonByRank, getById_eq_none_of_le l i hi]

/-- Witness for C8 at concrete inputs: the rank name "domain" is not a
mothur rank and fails, while rank id 3 on a depth-1 lineage yields the
absent taxon. -/
theorem claimC8_witness :
    getTaxonByRank [⟨cs "Bacteria", 100, none⟩] (.byName (cs "domain")) =
      .error .invalidRankError ∧
    getTaxonByRank [⟨cs "Bacteria", 100, none⟩] (.byId 3) = .ok none := by
  constructor
  · exact claimC8.1 [⟨cs "Bacteria", 100, none⟩] (cs "domain") (by decide)
  · exact claimC8.2 [⟨cs "Bacteria", 100, none⟩] 3 (by decide)

/-! ### Claim C9 -/

/-- C9: `set_unique_taxon_names` (the spec's `resolve_uncultured_names`)
is idempotent: if a first run succeeds with result `l'`, running the
resolution again on `l'` succeeds and returns `l'` unchanged — every
taxon's resolved name is identical to the result of the first run. -/
theorem claimC9 :
    ∀ (ts : Lineage) (i : Nat) (lk : Option Str) (l' : Lineage),
      resolveFrom i lk ts = .ok l' → resolveFrom i lk l' = .ok l' := by
  intro ts
  induction ts with
  | nil =>
    intro i lk l' h
    simp [resolveFrom] at h
    subst h
    rfl
  | cons t rest ih =>
    intro i lk l' h
    by_cases h1 : t.taxon_name = []
    · simp [resolveFrom, h1] at h
      subst h
      simp [resolveFrom, h1]
    · by_cases h2 : uncPrefix.isPrefixOf t.taxon_name
      · rcases hmk : mkUniqName lk i with e | u <;> simp [resolveFrom, h1, h2, hmk] at h
        rcases hr : resolveFrom (i + 1) lk rest with e | rest' <;> simp [hr] at h
        subst h
        have hih := ih (i + 1) lk rest' hr
        simp [resolveFrom, h1, h2, hmk, hih]
      · rcases hr : resolveFrom (i + 1) (some t.taxon_name) rest with e | rest' <;>
          simp [resolveFrom, h1, h2, hr] at h
        subst h
        have hih := ih (i + 1) (some t.taxon_name) rest' hr
        simp [resolveFrom, h1, h2, hih]

/-- Witness for C9 at a concrete parsed lineage
`"Bacteria(100);uncultured(80);"`. -/
theorem claimC9_witness :
    resolveFrom 0 none
      [⟨cs "Bacteria", 100, none⟩, ⟨cs "uncultured", 80, some (cs "Bacteria_phylum")⟩] =
      .ok [⟨cs "Bacteria", 100, none⟩, ⟨cs "uncultured", 80, some (cs "Bacteria_phylum")⟩] :=
  claimC9 [⟨cs "Bacteria", 100, none⟩, ⟨cs "uncultured", 80, none⟩] 0 none
    [⟨cs "Bacteria", 100, none⟩, ⟨cs "uncultured", 80, some (cs "Bacteria_phylum")⟩]
    (by decide)

/-! ### Claim C3 -/

/-- The disambiguation walk as the spec's words describe it (§4.2):
walk the ranks in order, tracking the most recent taxon name not
starting with "uncultured"; an "uncultured" taxon resolves to
`last_known + "_" + rank_name` when `last_known` is set, else to
"unknown", and never updates `last_known`. Unlike the source, this walk
never stops early. Used to compare the source behaviour against the
claim. -/
def specResolveWalk (i : Nat) (lk : Option Str) : Lineage → Lineage
  | [] => []
  | t :: rest =>
    if uncPrefix.isPrefixOf t.taxon_name then
      { t with uniq_name := some (match lk with
          | none => cs "unknown"
          | some s => s ++ cs "_" ++ RANK.getD i []) } :: specResolveWalk (i + 1) lk rest
    else
      t :: specResolveWalk (i + 1) (some t.taxon_name) rest

theorem resolveFrom_eq_specWalk :
    ∀ (ts : Lineage) (i : Nat) (lk : Option Str),
      (∀ t ∈ ts, t.taxon_name ≠ []) → i + ts.length ≤ 7 →
      (lk = none ∨ ∃ s, lk = some s ∧ s ≠ []) →
      resolveFrom i lk ts = .ok (specResolveWalk i lk ts) := by
  intro ts
  induction ts with
  | nil => intro i lk _ _ _; rfl
  | cons t rest ih =>
    intro i lk hne hlen hlk
    have h1 : t.taxon_name ≠ [] := hne t (List.mem_cons_self t rest)
    have hrest : ∀ x ∈ rest, x.taxon_name ≠ [] := fun x hx => hne x (List.mem_cons_of_mem t hx)
    have hlen' : i + 1 + rest.length ≤ 7 := by
      simp [List.length_cons] at hlen
      omega
    by_cases h2 : uncPrefix.isPrefixOf t.taxon_name
    · rcases hlk with hl | ⟨s, hs, hsne⟩
      · subst hl
        have hihr := ih (i + 1) none hrest hlen' (Or.inl rfl)
        simp [resolveFrom, specResolveWalk, h1, h2, mkUniqName, hihr]
      · subst hs
        have hi : i < RANK.length := by
          have h7 : RANK.length = 7 := rfl
          simp [List.length_cons] at hlen
          omega
        have hget : RANK[i]? = some (RANK.getD i []) := by
          have h7 : i < 7 := hi
          interval_cases i <;> rfl
        have hmk : mkUniqName (some s) i = .ok (s ++ cs "_" ++ RANK.getD i []) := by
          simp only [mkUniqName, hsne, List.get?_eq_getElem?, hget]
          simp
        have hihr := ih (i + 1) (some s) hrest hlen' (Or.inr ⟨s, rfl, hsne⟩)
        simp [resolveFrom, specResolveWalk, h1, h2, hmk, hihr]
    · have hihr := ih (i + 1) (some t.taxon_name) hrest hlen' (Or.inr ⟨t.taxon_name, rfl, h1⟩)
      simp [resolveFrom, specResolveWalk, h1, h2, hihr]

/-- C3 (amended): for every lineage all of whose taxa have nonempty raw
names and whose depth is at most 7, the source's resolution equals the
walk the claim describes (`specResolveWalk`); in particular, parsing
`"Bacteria(100);uncultured(80);uncultured(70);"` resolves the rank-1
taxon to "Bacteria_phylum" and the rank-2 taxon to "Bacteria_class".
(The restriction to nonempty names is forced: the source walk stops at
the first empty-named taxon, see the counterexample.) -/
theorem claimC3 :
    (∀ ts : Lineage, (∀ t ∈ ts, t.taxon_name ≠ []) → ts.length ≤ 7 →
      resolveFrom 0 none ts = .ok (specResolveWalk 0 none ts)) ∧
    (lineageFromStr (cs "Bacteria(100);uncultured(80);uncultured(70);")).map
        (fun l => l.map uniqueTaxonName) =
      .ok [cs "Bacteria", cs "Bacteria_phylum", cs "Bacteria_class"] := by
  constructor
  · intro ts hne hlen
    exact resolveFrom_eq_specWalk ts 0 none hne (by simpa using hlen) (Or.inl rfl)
  · decide

/-- Witness for C3's general part at the concrete parsed taxa of
`"Bacteria(100);uncultured(80);uncultured(70);"`. -/
theorem claimC3_witness :
    resolveFrom 0 none
      [⟨cs "Bacteria", 100, none⟩, ⟨cs "uncultured", 80, none⟩, ⟨cs "uncultured", 70, none⟩] =
      .ok (specResolveWalk 0 none
      [⟨cs "Bacteria", 100, none⟩, ⟨cs "uncultured", 80, none⟩, ⟨cs "uncultured", 70, none⟩]) :=
  claimC3.1
    [⟨cs "Bacteria", 100, none⟩, ⟨cs "uncultured", 80, none⟩, ⟨cs "uncultured", 70, none⟩]
    (by decide) (by decide)

/-- Counterexample to C3 as stated: the parsed lineage
`"A(100);(50);uncultured(40);"` has an empty-named rank-1 taxon; the
source's resolution stops there, leaving the rank-2 "uncultured" taxon
with resolved name "uncultured", while the claim's walk would give it
"unknown" (last known name unset) or `<last_known> ++ "_class"`. -/
theorem claimC3_cex :
    (lineageFromStr (cs "A(100);(50);uncultured(40);")).map (fun l => l.map uniqueTaxonName) =
      .ok [cs "A", [], cs "uncultured"] ∧
    resolveFrom 0 none [⟨cs "A", 100, none⟩, ⟨[], 50, none⟩, ⟨cs "uncultured", 40, none⟩] ≠
      .ok (specResolveWalk 0 none
        [⟨cs "A", 100, none⟩, ⟨[], 50, none⟩, ⟨cs "uncultured", 40, none⟩]) ∧
    cs "uncultured" ≠ cs "unknown" ∧
    cs "uncultured" ≠ cs "A" ++ cs "_" ++ cs "class" ∧
    cs "uncultured" ≠ cs "" ++ cs "_" ++ cs "class" := by
  refine ⟨by decide, by decide, by decide, by decide, by decide⟩

/-! ### Claim C6: round trip of lineage strings -/

theorem natDigits_ne_nil (n : Nat) : natDigits n ≠ [] := by
  rw [natDigits_eq]
  split <;> simp

theorem natDigits_all_digit (n : Nat) : ∀ c ∈ natDigits n, isDigitC c = true := by
  induction n using Nat.strong_induction_on with
  | _ n ih =>
    rw [natDigits_eq]
    split
    · rename_i h
      intro c hc
      simp at hc
      subst hc
      interval_cases n <;> decide
    · rename_i h
      intro c hc
      simp at hc
      rcases hc with hc | hc
      · exact ih (n / 10) (Nat.div_lt_self (by omega) (by omega)) c hc
      · subst hc
        have hm : n % 10 < 10 := Nat.mod_lt _ (by omega)
        generalize hr : n % 10 = r at hm ⊢
        interval_cases r <;> decide

theorem digitsToNat_append (l : Str) (c : Char) :
    digitsToNat (l ++ [c]) = digitsToNat l * 10 + digitVal c := by
  simp [digitsToNat, List.foldl_append]

theorem digitsToNat_natDigits (n : Nat) : digitsToNat (natDigits n) = n := by
  induction n using Nat.strong_induction_on with
  | _ n ih =>
    rw [natDigits_eq]
    split
    · rename_i h
      interval_cases n <;> decide
    · rename_i h
      rw [digitsToNat_append, ih (n / 10) (Nat.div_lt_self (by omega) (by omega))]
      have hm : n % 10 < 10 := Nat.mod_lt _ (by omega)
      have hdv : digitVal (Char.ofNat (48 + n % 10)) = n % 10 := by
        generalize hr : n % 10 = r at hm ⊢
        interval_cases r <;> decide
      rw [hdv]
      omega

theorem takeWhile_all_append {p : Char → Bool} {A B : Str} (h : ∀ a ∈ A, p a = true) :
    List.takeWhile p (A ++ B) = A ++ List.takeWhile p B := by
  induction A with
  | nil => simp
  | cons a rest ih =>
    have ha : p a = true := h a (List.mem_cons_self a rest)
    have hrest : ∀ x ∈ rest, p x = true := fun x hx => h x (List.mem_cons_of_mem a hx)
    simp [List.takeWhile_cons, ha, ih hrest]

theorem parseCoreRev_seg (name : Str) (c : Nat) (hn : '\n' ∉ name) :
    parseCoreRev (')' :: ((natDigits c).reverse ++ '(' :: name.reverse)) = some (name, c) := by
  have hds : List.takeWhile isDigitC ((natDigits c).reverse ++ '(' :: name.reverse)
      = (natDigits c).reverse := by
    have hall : ∀ a ∈ (natDigits c).reverse, isDigitC a = true := by
      intro a ha
      exact natDigits_all_digit c a (List.mem_reverse.mp ha)
    have hlp : isDigitC '(' = false := by decide
    rw [takeWhile_all_append hall]
    simp [List.takeWhile_cons, hlp]
  have hne : (natDigits c).reverse ≠ [] := by
    simp [List.reverse_eq_nil_iff, natDigits_ne_nil c]
  have hdrop : List.drop (natDigits c).reverse.length ((natDigits c).reverse ++ '(' :: name.reverse)
      = '(' :: name.reverse := List.drop_left _ _
  have hcont : name.reverse.contains '\n' = false := by
    simp [List.contains, List.elem_eq_mem, List.mem_reverse]
    exact hn
  simp only [parseCoreRev, hds, hne, if_neg hne, hdrop, hcont, Bool.false_eq_true, if_false,
    List.reverse_reverse, digitsToNat_natDigits]

theorem taxFromStr_seg (name : Str) (c : Nat) (hn : '\n' ∉ name) :
    taxFromStr (name ++ '(' :: natDigits c ++ [')']) = .ok ⟨name, c, none⟩ := by
  have hne : name ++ '(' :: natDigits c ++ [')'] ≠ [] := by simp
  have hassoc : name ++ '(' :: natDigits c ++ [')'] = (name ++ '(' :: natDigits c) ++ [')'] := by
    simp
  have hlast : (name ++ '(' :: natDigits c ++ [')']).getLast? = some ')' := by
    rw [hassoc, List.getLast?_concat]
  have hrev : (name ++ '(' :: natDigits c ++ [')']).reverse
      = ')' :: ((natDigits c).reverse ++ '(' :: name.reverse) := by
    simp [List.reverse_append]
  have hpc : parseCore (name ++ '(' :: natDigits c ++ [')']) = some (name, c) := by
    unfold parseCore
    rw [hrev]
    exact parseCoreRev_seg name c hn
  have hlne : (some ')' = some '\n') = False := by simp
  simp only [taxFromStr, hne, if_neg hne, hlast, hlne, if_false, hpc]

theorem splitSemi_no_semi (x : Str) (h : ';' ∉ x) : splitSemi x = [x] := by
  induction x with
  | nil => rfl
  | cons c rest ih =>
    have hc : c ≠ ';' := fun he => h (he ▸ List.mem_cons_self c rest)
    have hrest : ';' ∉ rest := fun hm => h (List.mem_cons_of_mem c hm)
    simp [splitSemi, hc, ih hrest]

theorem splitSemi_append (x rest : Str) (h : ';' ∉ x) :
    splitSemi (x ++ ';' :: rest) = x :: splitSemi rest := by
  induction x with
  | nil => simp [splitSemi]
  | cons c xr ih =>
    have hc : c ≠ ';' := fun he => h (he ▸ List.mem_cons_self c xr)
    have hxr : ';' ∉ xr := fun hm => h (List.mem_cons_of_mem c hm)
    have hr2 := ih hxr
    simp only [List.cons_append, splitSemi, List.append_eq, hr2]
    simp [hc]

theorem rstripSemi_append_last (z : Str) (c : Char) (hc : c ≠ ';') :
    rstripSemi (z ++ [c]) = z ++ [c] := by
  have hb : (c == ';') = false := by
    simp [hc]
  simp [rstripSemi, List.dropWhile_cons, hb]

theorem joinSemi_ends_rparen (segs : List Str) (hne : segs ≠ [])
    (h : ∀ x ∈ segs, ∃ y, x = y ++ [')']) :
    ∃ z, joinSemi segs = z ++ [')'] := by
  induction segs with
  | nil => exact absurd rfl hne
  | cons x rest ih =>
    cases rest with
    | nil =>
      rcases h x (List.mem_cons_self x []) with ⟨y, hy⟩
      exact ⟨y, by simpa [joinSemi] using hy⟩
    | cons y' rest' =>
      rcases ih (by simp) (fun a ha => h a (List.mem_cons_of_mem x ha)) with ⟨z, hz⟩
      refine ⟨x ++ ';' :: z, ?_⟩
      simp [joinSemi, hz]

theorem splitSemi_joinSemi (segs : List Str) (hne : segs ≠ [])
    (h : ∀ x ∈ segs, ';' ∉ x) :
    splitSemi (joinSemi segs) = segs := by
  induction segs with
  | nil => exact absurd rfl hne
  | cons x rest ih =>
    cases rest with
    | nil => simpa [joinSemi] using splitSemi_no_semi x (h x (List.mem_cons_self x []))
    | cons y' rest' =>
      have hx : ';' ∉ x := h x (List.mem_cons_self x _)
      have := ih (by simp) (fun a ha => h a (List.mem_cons_of_mem x ha))
      simp only [joinSemi, splitSemi_append x _ hx, this]

theorem parseTaxa_segs (ps : List (Str × Nat)) (h : ∀ p ∈ ps, '\n' ∉ p.1) :
    parseTaxa (ps.map (fun p => p.1 ++ '(' :: natDigits p.2 ++ [')'])) =
      .ok (ps.map (fun p => ⟨p.1, p.2, none⟩)) := by
  induction ps with
  | nil => rfl
  | cons p rest ih =>
    have hp : '\n' ∉ p.1 := h p (List.mem_cons_self p rest)
    have hrest := ih (fun q hq => h q (List.mem_cons_of_mem p hq))
    simp only [List.map_cons, parseTaxa, taxFromStr_seg p.1 p.2 hp, hrest]

theorem resolveFrom_ok_of_le (ts : Lineage) :
    ∀ (i : Nat) (lk : Option Str), i + ts.length ≤ 7 →
      ∃ l', resolveFrom i lk ts = .ok l' := by
  induction ts with
  | nil => intro i lk _; exact ⟨[], rfl⟩
  | cons t rest ih =>
    intro i lk hlen
    have hlen' : i + 1 + rest.length ≤ 7 := by
      simp [List.length_cons] at hlen
      omega
    by_cases h1 : t.taxon_name = []
    · exact ⟨t :: rest, by simp [resolveFrom, h1]⟩
    · by_cases h2 : uncPrefix.isPrefixOf t.taxon_name
      · have hmk : ∃ u, mkUniqName lk i = .ok u := by
          rcases lk with _ | s
          · exact ⟨cs "unknown", rfl⟩
          · by_cases hs : s = []
            · exact ⟨cs "unknown", by simp [mkUniqName, hs]⟩
            · have hi : i < RANK.length := by
                have h7 : RANK.length = 7 := rfl
                simp [List.length_cons] at hlen
                omega
              have hget : RANK[i]? = some (RANK.getD i []) := by
                have h7 : i < 7 := hi
                interval_cases i <;> rfl
              exact ⟨s ++ cs "_" ++ RANK.getD i [], by
                simp only [mkUniqName, hs, List.get?_eq_getElem?, hget]
                simp⟩
        rcases hmk with ⟨u, hu⟩
        rcases ih (i + 1) lk hlen' with ⟨rest', hrest⟩
        exact ⟨{ t with uniq_name := some u } :: rest', by
          simp [resolveFrom, h1, h2, hu, hrest]⟩
      · rcases ih (i + 1) (some t.taxon_name) hlen' with ⟨rest', hrest⟩
        exact ⟨t :: rest', by simp [resolveFrom, h1, h2, hrest]⟩

theorem resolveFrom_preserves_toStr (ts : Lineage) :
    ∀ (i : Nat) (lk : Option Str) (l' : Lineage), resolveFrom i lk ts = .ok l' →
      l'.map taxToStr = ts.map taxToStr := by
  induction ts with
  | nil =>
    intro i lk l' h
    simp [resolveFrom] at h
    subst h
    rfl
  | cons t rest ih =>
    intro i lk l' h
    by_cases h1 : t.taxon_name = []
    · simp [resolveFrom, h1] at h
      subst h
      rfl
    · by_cases h2 : uncPrefix.isPrefixOf t.taxon_name
      · rcases hmk : mkUniqName lk i with e | u <;> simp [resolveFrom, h1, h2, hmk] at h
        rcases hr : resolveFrom (i + 1) lk rest with e | rest' <;> simp [hr] at h
        subst h
        simp [List.map_cons, ih (i + 1) lk rest' hr, taxToStr]
      · rcases hr : resolveFrom (i + 1) (some t.taxon_name) rest with e | rest' <;>
          simp [resolveFrom, h1, h2, hr] at h
        subst h
        simp [List.map_cons, ih (i + 1) (some t.taxon_name) rest' hr]

/-- A taxon name that fits into one `name(conf)` segment of a lineage
string: it contains no segment separator and no newline. -/
def validTaxName (n : Str) : Prop := ';' ∉ n ∧ '\n' ∉ n

instance decValidTaxName (n : Str) : Decidable (validTaxName n) := by
  unfold validTaxName
  exact inferInstance

/-- One serialized `name(conf)` segment with the confidence in the
canonical decimal form that `to_str` prints. -/
def segOfPair (p : Str × Nat) : Str := p.1 ++ '(' :: natDigits p.2 ++ [')']

/-- A well-formed lineage string as the (amended) claim requires: at
most 7 `name(int)` segments, each terminated by `;`, with the
confidence written canonically (no leading zeros). -/
def wfCanon (s : Str) : Prop :=
  ∃ ps : List (Str × Nat), ps ≠ [] ∧ ps.length ≤ 7 ∧ (∀ p ∈ ps, validTaxName p.1) ∧
    s = joinSemi (ps.map segOfPair) ++ [';']

/-- One serialized `name(digits)` segment with an arbitrary nonempty
digit string as the confidence. -/
def segOfLoose (p : Str × Str) : Str := p.1 ++ '(' :: p.2 ++ [')']

/-- A well-formed lineage string as the claim literally reads: at most
7 valid `name(int)` segments, where the integer is any nonempty digit
string (possibly with leading zeros). -/
def wfLoose (s : Str) : Prop :=
  ∃ ps : List (Str × Str), ps ≠ [] ∧ ps.length ≤ 7 ∧
    (∀ p ∈ ps, validTaxName p.1 ∧ p.2 ≠ [] ∧ ∀ c ∈ p.2, isDigitC c = true) ∧
    s = joinSemi (ps.map segOfLoose) ++ [';']

/-- C6 (amended): for every well-formed lineage string ending in `;`
whose at most 7 segments are valid `name(int)` pairs with the
confidence written in canonical decimal (no leading zeros),
`to_str (from_str s) = s`; only raw names and confidences take part in
the round trip (resolved names are not serialized). -/
theorem claimC6 (s : Str) (h : wfCanon s) :
    (lineageFromStr s).map lineageToStr = .ok s := by
  rcases h with ⟨ps, hne, hlen, hnames, hs⟩
  have hsegne : ps.map segOfPair ≠ [] := by simpa using hne
  have hrp : ∀ x ∈ ps.map segOfPair, ∃ y, x = y ++ [')'] := by
    intro x hx
    rcases List.mem_map.mp hx with ⟨p, hp, hpx⟩
    exact ⟨p.1 ++ '(' :: natDigits p.2, by rw [← hpx]; simp [segOfPair]⟩
  have hnosemi : ∀ x ∈ ps.map segOfPair, ';' ∉ x := by
    intro x hx
    rcases List.mem_map.mp hx with ⟨p, hp, hpx⟩
    subst hpx
    intro hmem
    simp [segOfPair, List.mem_append, List.mem_cons] at hmem
    rcases hmem with h1 | h1
    · exact (hnames p hp).1 h1
    · exact absurd (natDigits_all_digit p.2 ';' h1) (by decide)
  have hstrip : rstripSemi s = joinSemi (ps.map segOfPair) := by
    rcases joinSemi_ends_rparen _ hsegne hrp with ⟨z, hz⟩
    rw [hs, rstripSemi_append_semi, hz, rstripSemi_append_last z ')' (by decide), ← hz]
  have hsplit : splitSemi (rstripSemi s) = ps.map segOfPair :=
    hstrip ▸ splitSemi_joinSemi _ hsegne hnosemi
  have hparse : parseTaxa (ps.map segOfPair) =
      .ok (ps.map (fun p => ⟨p.1, p.2, none⟩)) :=
    parseTaxa_segs ps (fun p hp => (hnames p hp).2)
  have hresolve : ∃ l', resolveFrom 0 none (ps.map (fun p => (⟨p.1, p.2, none⟩ : MTaxon))) = .ok l' := by
    apply resolveFrom_ok_of_le
    simpa using hlen
  rcases hresolve with ⟨l', hl'⟩
  have hpres := resolveFrom_preserves_toStr _ 0 none l' hl'
  have hfrom : lineageFromStr s = .ok l' := by
    unfold lineageFromStr
    rw [hsplit, hparse]
    exact hl'
  have hts : (ps.map (fun p => (⟨p.1, p.2, none⟩ : MTaxon))).map taxToStr = ps.map segOfPair := by
    rw [List.map_map]
    rfl
  have hto : lineageToStr l' = s := by
    unfold lineageToStr
    rw [hpres, hts, ← hs]
  rw [hfrom]
  show Except.ok (lineageToStr l') = Except.ok s
  rw [hto]

/-- Witness for C6 at the concrete lineage string
`"Bacteria(100);Acinetobacter(95);"`. -/
theorem claimC6_witness :
    (lineageFromStr (cs "Bacteria(100);Acinetobacter(95);")).map lineageToStr =
      .ok (cs "Bacteria(100);Acinetobacter(95);") :=
  claimC6 (cs "Bacteria(100);Acinetobacter(95);")
    ⟨[(cs "Bacteria", 100), (cs "Acinetobacter", 95)], by decide, by decide, by decide, by decide⟩

/-- Counterexample to C6 as stated: `"A(007);"` is a well-formed
lineage string whose single segment is a valid `name(int)` pair, yet
the round trip prints the confidence canonically and returns
`"A(7);"`, a different string. -/
theorem claimC6_cex :
    wfLoose (cs "A(007);") ∧
    (lineageFromStr (cs "A(007);")).map lineageToStr = .ok (cs "A(7);") ∧
    cs "A(7);" ≠ cs "A(007);" :=
  ⟨⟨[(cs "A", cs "007")], by decide, by decide, by decide, by decide⟩, by decide, by decide⟩

/-! ### Tables (`src/pylib/shared_table.py`) -/

/-- `TaggedTable`: tagged rows and columns over a 2-D matrix, stored
row-major as numpy does. -/
structure TaggedTable where
  row_tag : List Str
  col_tag : List Str
  data : List (List ℚ)
  deriving DecidableEq, Repr

/-- `TaggedTable.normalize_rows`, not in place: the source deepcopies
the table (leaving the receiver untouched) and divides each row of the
copy by its sum; modelled as a pure function on the table value. -/
def normalizeRows (t : TaggedTable) : TaggedTable :=
  ⟨t.row_tag, t.col_tag, t.data.map (fun row => row.map (fun x => x / row.sum))⟩

/-- Column `j` of a row-major matrix, `data[:, j]`. -/
def colOf (data : List (List ℚ)) (j : Nat) : List ℚ := data.map (fun row => row.getD j 0)

/-- Column means, `data.mean(axis = 0)` (the column count read off the
first row, as numpy reads it off the shape). -/
def colMeans (data : List (List ℚ)) : List ℚ :=
  match data with
  | [] => []
  | r0 :: _ => (List.range r0.length).map (fun j => (colOf data j).sum / data.length)

/-- Insertion step of the stable ascending sort on (index, value)
pairs used to model `argsort`. -/
def insertAsc (x : Nat × ℚ) : List (Nat × ℚ) → List (Nat × ℚ)
  | [] => [x]
  | y :: rest => if x.2 < y.2 then x :: y :: rest else y :: insertAsc x rest

/-- Insertion sort on (index, value) pairs by ascending value. -/
def isortAsc : List (Nat × ℚ) → List (Nat × ℚ)
  | [] => []
  | x :: rest => insertAsc x (isortAsc rest)

/-- `numpy.argsort` over a value list: the indices in ascending order
of value. -/
def argsortAsc (vals : List ℚ) : List Nat := (isortAsc vals.enum).map Prod.fst

/-- `TaggedTable._get_sorted_index`: `by_average` returns
`numpy.flip(argsort(column means))`; `by_rank` computes
`nrow, ncol = data.shape` and then evaluates
`numpy.arange(len(ncol), 0, -1)` in the first loop iteration — `len()`
of the int `ncol` raises `TypeError`, so every call on data with at
least one row fails (the zero-row branch is unreachable from a
constructed table); an unknown method name raises `ValueError`. -/
def getSortedIndex (data : List (List ℚ)) (method : Str) : Except Err (List Nat) :=
  if method = cs "by_average" then .ok ((argsortAsc (colMeans data)).reverse)
  else if method = cs "by_rank" then
    match data with
    | [] => .ok ((argsortAsc (colMeans ([] : List (List ℚ)))).reverse)
    | _ :: _ => .error .typeError
  else .error .valueError

/-- `TaggedTable.sort_cols_descend`: permute column tags and data
columns by the sorted index (pure model of the copy-then-sort source;
the in-place variant produces the same table value). -/
def sortColsDescend (t : TaggedTable) (method : Str) : Except Err TaggedTable :=
  match getSortedIndex t.data method with
  | .error e => .error e
  | .ok idx =>
    .ok ⟨t.row_tag, idx.map (fun i => t.col_tag.getD i []),
      t.data.map (fun row => idx.map (fun i => row.getD i 0))⟩

/-- `MothurOtuTaxonomy`: one parsed row of the taxonomy file. -/
structure OtuRec where
  otu_name : Str
  size : Nat
  taxonomy : Lineage
  deriving Repr

/-- The per-OTU loop body of `group_by_taxonomy`: look the OTU up in
the taxonomy dict (a missing key raises `KeyError`, a subclass of
`LookupError`), take the taxon at the requested rank, skip the OTU if
`not tax` (unclassified at this rank, or empty-named), otherwise emit
`(unique_taxon_name, column)`. -/
def collectPairs (dict : Str → Option OtuRec) (rank : RankSel) :
    List (Str × List ℚ) → Except Err (List (Str × List ℚ))
  | [] => .ok []
  | (o, col) :: rest =>
    match dict o with
    | none => .error .lookupError
    | some rc =>
      match getTaxonByRank rc.taxonomy rank with
      | .error e => .error e
      | .ok tax =>
        match collectPairs dict rank rest with
        | .error e => .error e
        | .ok tail =>
          match tax with
          | none => .ok tail
          | some tx =>
            if tx.taxon_name = [] then .ok tail
            else .ok ((uniqueTaxonName tx, col) :: tail)

/-- Association-list lookup, the model of a Python `dict` probe over
insertion order. -/
def lookupA (acc : List (Str × List ℚ)) (k : Str) : Option (List ℚ) :=
  match acc with
  | [] => none
  | p :: rest => if p.1 = k then some p.2 else lookupA rest k

/-- `numpy.zeros(n)`. -/
def zerosQ (n : Nat) : List ℚ := List.replicate n 0

/-- Elementwise vector addition. -/
def vadd (a b : List ℚ) : List ℚ := List.zipWith (· + ·) a b

/-- `tax_data[key] += col` on the insertion-ordered `defaultdict`: an
existing key accumulates into its entry, a new key starts from
`numpy.zeros(nrow)` and is appended. -/
def addInto (n : Nat) (acc : List (Str × List ℚ)) (p : Str × List ℚ) : List (Str × List ℚ) :=
  match lookupA acc p.1 with
  | some _ => acc.map (fun q => if q.1 = p.1 then (q.1, vadd q.2 p.2) else q)
  | none => acc ++ [(p.1, vadd (zerosQ n) p.2)]

/-- Fill `data[:, i] = tax_data[k]` column by column into the row-major
`numpy.empty((nrow, ncols))`. -/
def buildRows (n : Nat) (ps : List (Str × List ℚ)) : List (List ℚ) :=
  (List.range n).map (fun r => ps.map (fun p => p.2.getD r 0))

/-- The columns of a table in OTU order, `self.data[:, i]` for
`i, o in enumerate(self.otu)`. -/
def colsOf (t : TaggedTable) : List (List ℚ) := (List.range t.col_tag.length).map (colOf t.data)

/-- `MothurSharedTable.group_by_taxonomy` (the shared table's extra
`label`/`num_otus` fields play no role here): collect the per-OTU
columns into the taxon-keyed accumulator, build the intermediate table,
then sort columns descending by average. The source function takes no
minimum-bootstrap parameter and never reads confidences. -/
def groupByTaxonomy (t : TaggedTable) (dict : Str → Option OtuRec) (rank : RankSel) :
    Except Err TaggedTable :=
  match collectPairs dict rank (t.col_tag.zip (colsOf t)) with
  | .error e => .error e
  | .ok pairs =>
    let nrow := t.data.length
    let grouped := pairs.foldl (addInto nrow) []
    sortColsDescend ⟨t.row_tag, grouped.map Prod.fst, buildRows nrow grouped⟩ (cs "by_average")

/-! ### Claim C5 -/

theorem sum_map_div (l : List ℚ) (c : ℚ) : (l.map (fun x => x / c)).sum = l.sum / c := by
  induction l with
  | nil => simp
  | cons a rest ih => simp [ih, add_div]

/-- C5: `normalize_rows` without the in-place option returns a table
with the same row and column tags (the source builds it on a deep copy,
leaving the receiver's tags and data unchanged — modelled by
`normalizeRows` being a pure function), and every row whose input sum
is nonzero sums to 1 in the result. -/
theorem claimC5 (t : TaggedTable) :
    (normalizeRows t).row_tag = t.row_tag ∧
    (normalizeRows t).col_tag = t.col_tag ∧
    ∀ row ∈ t.data, row.sum ≠ 0 →
      (row.map (fun x => x / row.sum)) ∈ (normalizeRows t).data ∧
      (row.map (fun x => x / row.sum)).sum = 1 := by
  refine ⟨rfl, rfl, ?_⟩
  intro row hrow hsum
  refine ⟨List.mem_map_of_mem _ hrow, ?_⟩
  rw [sum_map_div, div_self hsum]

/-- Witness for C5 at a concrete 1-by-2 table. -/
theorem claimC5_witness :
    (([(1 : ℚ), 3]).map (fun x => x / ([(1 : ℚ), 3]).sum)) ∈
      (normalizeRows ⟨[cs "s1"], [cs "a", cs "b"], [[1, 3]]⟩).data ∧
    (([(1 : ℚ), 3]).map (fun x => x / ([(1 : ℚ), 3]).sum)).sum = 1 :=
  (claimC5 ⟨[cs "s1"], [cs "a", cs "b"], [[1, 3]]⟩).2.2 [1, 3] (by decide) (by norm_num)

/-! ### Claim C4 -/

/-- C4: `sort_cols_descend` with method `by_rank` does not return the
rank-sorted permutation the claim (and the source's own docstring)
describes: on any table with at least one data row it raises
`TypeError`, because `_get_sorted_index` evaluates
`numpy.arange(len(ncol), 0, -1)` where `ncol` is an `int`. Evaluated
here at a concrete 1-by-2 table. -/
theorem claimC4 :
    sortColsDescend ⟨[cs "s1"], [cs "a", cs "b"], [[1, 2]]⟩ (cs "by_rank") =
      .error .typeError := by
  decide

/-! ### Claim C1 -/

/-- A 1-sample, 1-OTU count table for exercising the bootstrap
threshold: sample `s1` counts 5 reads of `Otu1`. -/
def tblC1 : TaggedTable := ⟨[cs "s1"], [cs "Otu1"], [[5]]⟩

/-- Taxonomy reference mapping `Otu1` to the kingdom-level taxon
`Bacteria` with bootstrap confidence 85. -/
def dictC1 : Str → Option OtuRec :=
  fun s => if s = cs "Otu1" then some ⟨cs "Otu1", 5, [⟨cs "Bacteria", 85, none⟩]⟩ else none

/-- C1 fails on the code: `group_by_taxonomy` takes no
minimum-bootstrap parameter and never reads confidences, so with
threshold `t = 90` the OTU whose kingdom-level confidence is 85 (< 90)
still contributes the output column `Bacteria` instead of being treated
as absent. (Moreover `main` in `get_mothur_taxonomy_abundance.py`
passes `min_bootstrap=` to `group_by_taxonomy`, a keyword the function
does not accept, so the documented CLI crashes with `TypeError`.) -/
theorem claimC1 :
    groupByTaxonomy tblC1 dictC1 (.byName (cs "kingdom")) =
      .ok ⟨[cs "s1"], [cs "Bacteria"], [[5]]⟩ ∧ (85 : Nat) < 90 := by
  constructor
  · simp [groupByTaxonomy, collectPairs, colsOf, colOf, tblC1, dictC1, getTaxonByRank,
      rankIdOf, idxOfAux, RANK, getById, uniqueTaxonName, addInto, lookupA, vadd, zerosQ,
      buildRows, sortColsDescend, getSortedIndex, argsortAsc, isortAsc, insertAsc, colMeans, cs,
      List.range_succ, Function.comp]
  · decide

/-! ### Claim C7 -/

/-- A valid rank selector: any integer id, or a name in the fixed rank
enumeration. -/
def rankOk (r : RankSel) : Prop :=
  match r with
  | .byId _ => True
  | .byName s => s ∈ RANK

instance decRankOk (r : RankSel) : Decidable (rankOk r) := by
  cases r with
  | byId i => exact inferInstanceAs (Decidable True)
  | byName s => exact inferInstanceAs (Decidable (s ∈ RANK))

theorem idxOfAux_isSome_of_mem (s : Str) (L : List Str) (h : s ∈ L) :
    ∀ i, (idxOfAux s i L).isSome := by
  induction L with
  | nil => simp at h
  | cons r rest ih =>
    intro i
    by_cases hr : r = s
    · simp [idxOfAux, hr]
    · have hm : s ∈ rest := by
        rcases List.mem_cons.mp h with he | hm
        · exact absurd he.symm hr
        · exact hm
      simp [idxOfAux, hr, ih hm]

theorem getTaxonByRank_ok (r : RankSel) (hr : rankOk r) (lin : Lineage) :
    ∃ ot, getTaxonByRank lin r = .ok ot := by
  cases r with
  | byId i => exact ⟨getById lin i, rfl⟩
  | byName s =>
    have hs : s ∈ RANK := hr
    have hsome := idxOfAux_isSome_of_mem s RANK hs 0
    rcases hidx : idxOfAux s 0 RANK with _ | i
    · rw [hidx] at hsome
      simp at hsome
    · exact ⟨getById lin i, by simp [getTaxonByRank, rankIdOf, hidx]⟩

theorem collectPairs_lookupError (dict : Str → Option OtuRec) (rank : RankSel)
    (hrank : rankOk rank) :
    ∀ lst : List (Str × List ℚ), (∃ p ∈ lst, dict p.1 = none) →
      collectPairs dict rank lst = .error .lookupError := by
  intro lst
  induction lst with
  | nil => rintro ⟨p, hp, _⟩; simp at hp
  | cons hd rest ih =>
    rintro ⟨p, hp, hnone⟩
    obtain ⟨o, col⟩ := hd
    rcases List.mem_cons.mp hp with he | hm
    · subst he
      simp [collectPairs, hnone]
    · cases hd2 : dict o with
      | none => simp [collectPairs, hd2]
      | some rc =>
        rcases getTaxonByRank_ok rank hrank rc.taxonomy with ⟨ot, hot⟩
        have hih := ih ⟨p, hm, hnone⟩
        simp [collectPairs, hd2, hot, hih]

/-- C7: if an OTU id appearing among the count table's columns has no
entry in the taxonomy reference, `group_by_taxonomy` fails with the
`KeyError` of `otu_tax_dict[o]` — a `LookupError`, a hard error rather
than a silent skip (an OTU whose taxon at the rank is absent is instead
skipped inside a successful run, see C2). -/
theorem claimC7 (t : TaggedTable) (dict : Str → Option OtuRec) (rank : RankSel)
    (hrank : rankOk rank) (o : Str) (ho : o ∈ t.col_tag) (hmiss : dict o = none) :
    groupByTaxonomy t dict rank = .error .lookupError := by
  have hlen : t.col_tag.length ≤ (colsOf t).length := by
    simp [colsOf]
  have hofst : o ∈ (t.col_tag.zip (colsOf t)).map Prod.fst := by
    rw [List.map_fst_zip _ _ hlen]
    exact ho
  rcases List.mem_map.mp hofst with ⟨p, hp, hpo⟩
  have herr := collectPairs_lookupError dict rank hrank (t.col_tag.zip (colsOf t))
    ⟨p, hp, by rw [hpo]; exact hmiss⟩
  simp [groupByTaxonomy, herr]

/-- Witness for C7: a table whose single OTU column `OtuX` is missing
from an empty taxonomy reference. -/
theorem claimC7_witness :
    groupByTaxonomy ⟨[cs "s1"], [cs "OtuX"], [[2]]⟩ (fun _ => none) (.byName (cs "genus")) =
      .error .lookupError :=
  claimC7 ⟨[cs "s1"], [cs "OtuX"], [[2]]⟩ (fun _ => none) (.byName (cs "genus"))
    (by decide) (cs "OtuX") (by decide) rfl

/-! ### Claim C2 -/

/-- The resolved taxon name under which an OTU contributes, or `none`
when the loop skips it (taxon absent at the rank, or empty-named); the
error cases (missing OTU, invalid rank) also give `none` here but are
excluded wherever this is used. -/
def resolvedAt (dict : Str → Option OtuRec) (rank : RankSel) (o : Str) : Option Str :=
  match dict o with
  | none => none
  | some rc =>
    match getTaxonByRank rc.taxonomy rank with
    | .error _ => none
    | .ok none => none
    | .ok (some tx) => if tx.taxon_name = [] then none else some (uniqueTaxonName tx)

/-- The (resolved name, input column) pairs of the OTUs that classify
at the rank, in OTU order. -/
def classifiedPairs (t : TaggedTable) (dict : Str → Option OtuRec) (rank : RankSel) :
    List (Str × List ℚ) :=
  (t.col_tag.zip (colsOf t)).filterMap
    (fun oc => (resolvedAt dict rank oc.1).map (fun nm => (nm, oc.2)))

/-- The elementwise sum of the columns keyed `k`, accumulated from
`numpy.zeros(n)` exactly as the defaultdict does. -/
def groupVal (n : Nat) (k : Str) (ps : List (Str × List ℚ)) : List ℚ :=
  ((ps.filter (fun p => decide (p.1 = k))).map Prod.snd).foldl vadd (zerosQ n)

/-- The keys of the accumulator, in insertion order. -/
def keysOf (acc : List (Str × List ℚ)) : List Str := acc.map Prod.fst

theorem collectPairs_ok (dict : Str → Option OtuRec) (rank : RankSel) (hrank : rankOk rank) :
    ∀ lst : List (Str × List ℚ), (∀ p ∈ lst, (dict p.1).isSome) →
      collectPairs dict rank lst =
        .ok (lst.filterMap (fun oc => (resolvedAt dict rank oc.1).map (fun nm => (nm, oc.2)))) := by
  intro lst
  induction lst with
  | nil => intro _; rfl
  | cons hd rest ih =>
    intro hall
    obtain ⟨o, col⟩ := hd
    have hh := hall (o, col) (List.mem_cons_self _ _)
    rcases hd2 : dict o with _ | rc
    · rw [hd2] at hh
      simp at hh
    · rcases getTaxonByRank_ok rank hrank rc.taxonomy with ⟨ot, hot⟩
      have hih := ih (fun p hp => hall p (List.mem_cons_of_mem _ hp))
      cases ot with
      | none => simp [collectPairs, hd2, hot, hih, List.filterMap_cons, resolvedAt]
      | some tx =>
        by_cases htx : tx.taxon_name = []
        · simp [collectPairs, hd2, hot, hih, htx, List.filterMap_cons, resolvedAt]
        · simp [collectPairs, hd2, hot, hih, htx, List.filterMap_cons, resolvedAt]

theorem lookupA_isSome_iff (acc : List (Str × List ℚ)) (k : Str) :
    (lookupA acc k).isSome ↔ k ∈ keysOf acc := by
  induction acc with
  | nil => simp [lookupA, keysOf]
  | cons p rest ih =>
    by_cases hp : p.1 = k
    · simp [lookupA, hp, keysOf]
    · simp [lookupA, hp, keysOf, ih]
      intro he
      exact absurd he.symm hp

theorem lookupA_map_update (acc : List (Str × List ℚ)) (k : Str) (w : List ℚ) (x : Str) :
    lookupA (acc.map (fun q => if q.1 = k then (q.1, vadd q.2 w) else q)) x =
      if x = k then (lookupA acc x).map (fun v => vadd v w) else lookupA acc x := by
  induction acc with
  | nil => by_cases hx : x = k <;> simp [lookupA, hx]
  | cons p rest ih =>
    by_cases hp : p.1 = k
    · have hup : (if p.1 = k then (p.1, vadd p.2 w) else p) = (p.1, vadd p.2 w) := if_pos hp
      by_cases hpx : p.1 = x
      · have hx : x = k := hpx ▸ hp
        simp [List.map_cons, hup, lookupA, hpx, hx]
      · have hx : ¬ x = k := fun he => hpx (hp.trans he.symm)
        simp [List.map_cons, hup, lookupA, hpx, hx, ih]
    · have hup : (if p.1 = k then (p.1, vadd p.2 w) else p) = p := if_neg hp
      by_cases hpx : p.1 = x
      · have hx : ¬ x = k := fun he => hp (hpx.trans he)
        simp [List.map_cons, hup, lookupA, hpx, hx]
      · simp [List.map_cons, hup, lookupA, hpx, ih]

theorem lookupA_append_single (acc : List (Str × List ℚ)) (y : Str × List ℚ) (x : Str) :
    lookupA (acc ++ [y]) x =
      match lookupA acc x with
      | some v => some v
      | none => if y.1 = x then some y.2 else none := by
  induction acc with
  | nil => simp [lookupA]
  | cons p rest ih =>
    by_cases hp : p.1 = x
    · simp [lookupA, hp]
    · simp [lookupA, hp, ih]

theorem lookupA_of_mem_nodup (acc : List (Str × List ℚ)) (hnd : (keysOf acc).Nodup)
    (q : Str × List ℚ) (hq : q ∈ acc) : lookupA acc q.1 = some q.2 := by
  induction acc with
  | nil => simp at hq
  | cons p rest ih =>
    rcases List.mem_cons.mp hq with he | hm
    · subst he
      simp [lookupA]
    · have hp1 : p.1 ≠ q.1 := by
        intro he
        have : q.1 ∈ keysOf rest := List.mem_map_of_mem Prod.fst hm
        rw [← he] at this
        exact (List.nodup_cons.mp (by simpa [keysOf] using hnd)).1 this
      have hnd' : (keysOf rest).Nodup := (List.nodup_cons.mp (by simpa [keysOf] using hnd)).2
      simp [lookupA, hp1, ih hnd' hm]

theorem groupVal_append_ne (n : Nat) (k : Str) (ps : List (Str × List ℚ))
    (p : Str × List ℚ) (h : p.1 ≠ k) :
    groupVal n k (ps ++ [p]) = groupVal n k ps := by
  unfold groupVal
  rw [List.filter_append]
  simp [List.filter_cons, h]

theorem groupVal_append_eq (n : Nat) (ps : List (Str × List ℚ)) (p : Str × List ℚ) :
    groupVal n p.1 (ps ++ [p]) = vadd (groupVal n p.1 ps) p.2 := by
  unfold groupVal
  rw [List.filter_append]
  simp [List.filter_cons, List.foldl_append]

theorem groupVal_not_mem (n : Nat) (k : Str) (ps : List (Str × List ℚ))
    (h : k ∉ ps.map Prod.fst) :
    groupVal n k ps = zerosQ n := by
  unfold groupVal
  have hnil : ps.filter (fun p => decide (p.1 = k)) = [] := by
    rw [List.filter_eq_nil_iff]
    intro a ha
    simp only [decide_eq_true_eq]
    intro he
    exact h (he ▸ List.mem_map_of_mem Prod.fst ha)
  rw [hnil]
  rfl

/-- Invariant tying the accumulator to the processed prefix of pairs:
keys are distinct and in bijection with the names seen so far, each key
holds the accumulated sum of its columns, and all stored columns have
length `n`. -/
def groupedInv (n : Nat) (ps acc : List (Str × List ℚ)) : Prop :=
  (keysOf acc).Nodup ∧
  (∀ k, k ∈ keysOf acc ↔ k ∈ ps.map Prod.fst) ∧
  (∀ k, k ∈ keysOf acc → lookupA acc k = some (groupVal n k ps)) ∧
  (∀ q ∈ acc, q.2.length = n)

theorem keysOf_map_update (acc : List (Str × List ℚ)) (k : Str) (w : List ℚ) :
    keysOf (acc.map (fun q => if q.1 = k then (q.1, vadd q.2 w) else q)) = keysOf acc := by
  unfold keysOf
  rw [List.map_map]
  apply List.map_congr_left
  intro q _
  by_cases hq : q.1 = k <;> simp [hq]

theorem addInto_inv (n : Nat) (ps acc : List (Str × List ℚ)) (p : Str × List ℚ)
    (hp2 : p.2.length = n) (hinv : groupedInv n ps acc) :
    groupedInv n (ps ++ [p]) (addInto n acc p) := by
  obtain ⟨hnd, hiff, hlook, hlens⟩ := hinv
  cases hlk : lookupA acc p.1 with
  | some v =>
    have haddeq : addInto n acc p =
        acc.map (fun q => if q.1 = p.1 then (q.1, vadd q.2 p.2) else q) := by
      unfold addInto
      rw [hlk]
    have hmemk : p.1 ∈ keysOf acc := (lookupA_isSome_iff acc p.1).mp (by simp [hlk])
    rw [haddeq]
    refine ⟨?_, ?_, ?_, ?_⟩
    · rw [keysOf_map_update]
      exact hnd
    · intro k
      rw [keysOf_map_update]
      simp only [List.map_append, List.mem_append, List.map_cons, List.map_nil,
        List.mem_singleton, List.mem_cons]
      constructor
      · intro hk
        exact Or.inl ((hiff k).mp hk)
      · rintro (hk | hk)
        · exact (hiff k).mpr hk
        · simp at hk
          exact hk ▸ hmemk
    · intro k hk
      rw [keysOf_map_update] at hk
      rw [lookupA_map_update]
      by_cases hkp : k = p.1
      · subst hkp
        rw [if_pos rfl, hlook p.1 hk]
        have hge : groupVal n p.1 (ps ++ [p]) = vadd (groupVal n p.1 ps) p.2 :=
          groupVal_append_eq n ps p
        rw [hge]
        rfl
      · rw [if_neg hkp, hlook k hk, groupVal_append_ne n k ps p (fun he => hkp he.symm)]
    · intro q hq
      rcases List.mem_map.mp hq with ⟨q0, hq0, hq0e⟩
      rw [← hq0e]
      by_cases hq1 : q0.1 = p.1
      · rw [if_pos hq1]
        have h1 : q0.2.length = n := hlens q0 hq0
        simp [vadd, List.length_zipWith, h1, hp2]
      · rw [if_neg hq1]
        exact hlens q0 hq0
  | none =>
    have haddeq : addInto n acc p = acc ++ [(p.1, vadd (zerosQ n) p.2)] := by
      unfold addInto
      rw [hlk]
    have hnodk : p.1 ∉ keysOf acc := by
      intro hk
      have hs := (lookupA_isSome_iff acc p.1).mpr hk
      rw [hlk] at hs
      simp at hs
    have hkeys : keysOf (acc ++ [(p.1, vadd (zerosQ n) p.2)]) = keysOf acc ++ [p.1] := by
      simp [keysOf]
    rw [haddeq]
    refine ⟨?_, ?_, ?_, ?_⟩
    · rw [hkeys]
      simp [List.nodup_append, hnd, hnodk]
    · intro k
      rw [hkeys]
      simp [hiff k]
    · intro k hk
      rw [hkeys] at hk
      rw [lookupA_append_single]
      rcases List.mem_append.mp hk with hka | hkp
      · have hkne : p.1 ≠ k := fun he => hnodk (he ▸ hka)
        rw [hlook k hka]
        rw [groupVal_append_ne n k ps p hkne]
      · simp at hkp
        subst hkp
        rw [hlk]
        have h1 : groupVal n p.1 (ps ++ [p]) = vadd (groupVal n p.1 ps) p.2 :=
          groupVal_append_eq n ps p
        have hnotin : p.1 ∉ ps.map Prod.fst := fun hm => hnodk ((hiff p.1).mpr hm)
        rw [h1, groupVal_not_mem n p.1 ps hnotin]
        simp
    · intro q hq
      rcases List.mem_append.mp hq with hqa | hqp
      · exact hlens q hqa
      · simp at hqp
        subst hqp
        simp [vadd, zerosQ, List.length_zipWith, hp2]

theorem foldl_addInto_inv (n : Nat) :
    ∀ (ps2 ps1 acc : List (Str × List ℚ)), (∀ p ∈ ps2, p.2.length = n) →
      groupedInv n ps1 acc → groupedInv n (ps1 ++ ps2) (ps2.foldl (addInto n) acc) := by
  intro ps2
  induction ps2 with
  | nil => intro ps1 acc _ h; simpa using h
  | cons p rest ih =>
    intro ps1 acc hall hinv
    have hstep := addInto_inv n ps1 acc p (hall p (List.mem_cons_self _ _)) hinv
    have := ih (ps1 ++ [p]) (addInto n acc p) (fun q hq => hall q (List.mem_cons_of_mem _ hq)) hstep
    simpa [List.append_assoc] using this

theorem groupedInv_init (n : Nat) : groupedInv n [] [] := by
  refine ⟨List.nodup_nil, ?_, ?_, ?_⟩
  · intro k; simp [keysOf]
  · intro k hk; simp [keysOf] at hk
  · intro q hq; simp at hq

theorem insertAsc_perm (x : Nat × ℚ) (l : List (Nat × ℚ)) :
    List.Perm (insertAsc x l) (x :: l) := by
  induction l with
  | nil => exact List.Perm.refl _
  | cons y rest ih =>
    by_cases h : x.2 < y.2
    · simp only [insertAsc, if_pos h]
      exact List.Perm.refl _
    · simp only [insertAsc, if_neg h]
      exact (ih.cons y).trans (List.Perm.swap x y rest)

theorem isortAsc_perm (l : List (Nat × ℚ)) : List.Perm (isortAsc l) l := by
  induction l with
  | nil => exact List.Perm.refl _
  | cons x rest ih => exact (insertAsc_perm x (isortAsc rest)).trans (ih.cons x)

theorem argsortAsc_perm (vals : List ℚ) :
    List.Perm (argsortAsc vals) (List.range vals.length) := by
  have h1 : List.Perm ((isortAsc vals.enum).map Prod.fst) (vals.enum.map Prod.fst) :=
    (isortAsc_perm vals.enum).map Prod.fst
  rw [List.enum_map_fst] at h1
  exact h1

theorem getD_map_of_lt {α β : Type} (l : List α) (g : α → β) (d : β) (d' : α) (j : Nat)
    (h : j < l.length) : (l.map g).getD j d = g (l.getD j d') := by
  induction l generalizing j with
  | nil => simp at h
  | cons a rest ih =>
    cases j with
    | zero => simp
    | succ m =>
      simp only [List.map_cons, List.getD_cons_succ]
      exact ih m (by simpa using h)

theorem map_getD_range {α : Type} (l : List α) (d : α) :
    (List.range l.length).map (fun i => l.getD i d) = l := by
  induction l with
  | nil => simp
  | cons a rest ih =>
    rw [List.length_cons, List.range_succ_eq_map, List.map_cons, List.map_map]
    have hc : ((fun i => (a :: rest).getD i d) ∘ Nat.succ) = fun i => rest.getD i d := by
      funext i
      simp [Function.comp, List.getD_cons_succ]
    rw [hc, ih]
    simp

theorem getD_mem_of_lt {α : Type} (l : List α) (d : α) (j : Nat) (h : j < l.length) :
    l.getD j d ∈ l := by
  induction l generalizing j with
  | nil => simp at h
  | cons a rest ih =>
    cases j with
    | zero => simp
    | succ m =>
      simp only [List.getD_cons_succ]
      exact List.mem_cons_of_mem a (ih m (by simpa using h))

theorem colOf_buildRows (n : Nat) (ps : List (Str × List ℚ)) (i : Nat) (hi : i < ps.length)
    (hlen : ∀ p ∈ ps, p.2.length = n) :
    colOf (buildRows n ps) i = (ps.getD i ([], [])).2 := by
  unfold colOf buildRows
  rw [List.map_map]
  have hstep : ∀ r ∈ List.range n,
      ((fun row => row.getD i 0) ∘ fun r => ps.map (fun p => p.2.getD r 0)) r =
        (ps.getD i ([], [])).2.getD r 0 := by
    intro r _
    simp only [Function.comp]
    exact getD_map_of_lt ps (fun p => p.2.getD r 0) 0 ([], []) i hi
  rw [List.map_congr_left hstep]
  have hclen : (ps.getD i ([], [])).2.length = n :=
    hlen _ (getD_mem_of_lt ps ([], []) i hi)
  rw [← hclen]
  exact map_getD_range _ 0

/-- C2: on a count table whose OTU columns all appear in the taxonomy
reference, grouping at a valid rank succeeds; the result keeps the
input's row tags, its column names are exactly the distinct resolved
taxon names of the OTUs classified (non-absent) at that rank, each
output column is the elementwise sum (`groupVal`) of the input columns
of the OTUs resolving to that name, and when zero OTUs classify the
result has zero columns and no error is raised. (`t.data ≠ []`
reflects that a constructed table has at least one row.) -/
theorem claimC2 (t : TaggedTable) (dict : Str → Option OtuRec) (rank : RankSel)
    (hrank : rankOk rank)
    (hcomplete : ∀ o ∈ t.col_tag, (dict o).isSome)
    (hnz : t.data ≠ []) :
    ∃ out : TaggedTable, groupByTaxonomy t dict rank = .ok out ∧
      out.row_tag = t.row_tag ∧
      out.col_tag.Nodup ∧
      (∀ nm, nm ∈ out.col_tag ↔ nm ∈ (classifiedPairs t dict rank).map Prod.fst) ∧
      (classifiedPairs t dict rank = [] → out.col_tag = []) ∧
      (∀ j, j < out.col_tag.length →
        colOf out.data j =
          groupVal t.data.length (out.col_tag.getD j []) (classifiedPairs t dict rank)) := by
  have hzip : ∀ p ∈ t.col_tag.zip (colsOf t), (dict p.1).isSome := by
    intro p hp
    obtain ⟨o, c⟩ := p
    exact hcomplete o (List.of_mem_zip hp).1
  have hcp : collectPairs dict rank (t.col_tag.zip (colsOf t)) =
      .ok (classifiedPairs t dict rank) :=
    collectPairs_ok dict rank hrank _ hzip
  have hplen : ∀ p ∈ classifiedPairs t dict rank, p.2.length = t.data.length := by
    intro p hp
    unfold classifiedPairs at hp
    rcases List.mem_filterMap.mp hp with ⟨oc, hoc, hmap⟩
    rcases Option.map_eq_some'.mp hmap with ⟨nm, _, hpe⟩
    have hoc2 : oc.2 ∈ colsOf t := by
      obtain ⟨o, c⟩ := oc
      exact (List.of_mem_zip hoc).2
    unfold colsOf at hoc2
    rcases List.mem_map.mp hoc2 with ⟨j, _, hcol⟩
    rw [← hpe]
    show oc.2.length = t.data.length
    rw [← hcol]
    simp [colOf]
  have hinv : groupedInv t.data.length (classifiedPairs t dict rank)
      ((classifiedPairs t dict rank).foldl (addInto t.data.length) []) := by
    have h0 := foldl_addInto_inv t.data.length (classifiedPairs t dict rank) [] []
      hplen (groupedInv_init t.data.length)
    simpa using h0
  obtain ⟨hnd, hiff, hlook, hlens⟩ := hinv
  obtain ⟨m, hm⟩ : ∃ m, t.data.length = m + 1 := by
    cases hd : t.data with
    | nil => exact absurd hd hnz
    | cons r rs => exact ⟨rs.length, rfl⟩
  have hcmlen : (colMeans (buildRows t.data.length
      ((classifiedPairs t dict rank).foldl (addInto t.data.length) []))).length =
      ((classifiedPairs t dict rank).foldl (addInto t.data.length) []).length := by
    rw [hm]
    unfold buildRows colMeans
    rw [List.range_succ_eq_map, List.map_cons]
    simp
  have hperm : List.Perm
      ((argsortAsc (colMeans (buildRows t.data.length
        ((classifiedPairs t dict rank).foldl (addInto t.data.length) [])))).reverse)
      (List.range ((classifiedPairs t dict rank).foldl (addInto t.data.length) []).length) := by
    have h1 := argsortAsc_perm (colMeans (buildRows t.data.length
      ((classifiedPairs t dict rank).foldl (addInto t.data.length) [])))
    rw [hcmlen] at h1
    exact (List.reverse_perm _).trans h1
  have hmg : (List.range ((classifiedPairs t dict rank).foldl
      (addInto t.data.length) []).length).map (fun i =>
      ((((classifiedPairs t dict rank).foldl (addInto t.data.length) []).map
        Prod.fst)).getD i []) =
      (((classifiedPairs t dict rank).foldl (addInto t.data.length) []).map Prod.fst) := by
    have hl : ((classifiedPairs t dict rank).foldl (addInto t.data.length) []).length =
        ((((classifiedPairs t dict rank).foldl (addInto t.data.length) []).map
          Prod.fst)).length := by
      simp
    rw [hl]
    exact map_getD_range _ []
  have hctperm : List.Perm
      (((argsortAsc (colMeans (buildRows t.data.length
        ((classifiedPairs t dict rank).foldl (addInto t.data.length) [])))).reverse).map
        (fun i => (((classifiedPairs t dict rank).foldl (addInto t.data.length) []).map
          Prod.fst).getD i []))
      (((classifiedPairs t dict rank).foldl (addInto t.data.length) []).map Prod.fst) := by
    have h2 := hperm.map (fun i =>
      ((((classifiedPairs t dict rank).foldl (addInto t.data.length) []).map Prod.fst)).getD i [])
    rw [hmg] at h2
    exact h2
  refine ⟨⟨t.row_tag,
    ((argsortAsc (colMeans (buildRows t.data.length
      ((classifiedPairs t dict rank).foldl (addInto t.data.length) [])))).reverse).map
      (fun i => (((classifiedPairs t dict rank).foldl (addInto t.data.length) []).map
        Prod.fst).getD i []),
    (buildRows t.data.length
      ((classifiedPairs t dict rank).foldl (addInto t.data.length) [])).map
      (fun row => ((argsortAsc (colMeans (buildRows t.data.length
        ((classifiedPairs t dict rank).foldl (addInto t.data.length) [])))).reverse).map
        (fun i => row.getD i 0))⟩, ?_, rfl, ?_, ?_, ?_, ?_⟩
  · unfold groupByTaxonomy
    rw [hcp]
    show sortColsDescend _ (cs "by_average") = _
    unfold sortColsDescend getSortedIndex
    rw [if_pos rfl]
  · exact hctperm.nodup_iff.mpr hnd
  · intro nm
    rw [hctperm.mem_iff]
    exact hiff nm
  · intro hpe
    have hkeynil : ((classifiedPairs t dict rank).foldl (addInto t.data.length) []).map
        Prod.fst = [] := by
      apply List.eq_nil_iff_forall_not_mem.mpr
      intro k hk
      have hx := (hiff k).mp hk
      rw [hpe] at hx
      simp at hx
    have hg0 : (classifiedPairs t dict rank).foldl (addInto t.data.length) [] = [] :=
      List.map_eq_nil_iff.mp hkeynil
    have hidxnil : (argsortAsc (colMeans (buildRows t.data.length
        ((classifiedPairs t dict rank).foldl (addInto t.data.length) [])))).reverse = [] := by
      rw [hg0]
      have hp0 := hperm
      rw [hg0] at hp0
      exact List.perm_nil.mp (by simpa using hp0)
    rw [hidxnil]
    rfl
  · intro j hj
    have hjlen : j < ((argsortAsc (colMeans (buildRows t.data.length
        ((classifiedPairs t dict rank).foldl (addInto t.data.length) [])))).reverse).length := by
      simpa using hj
    have hi0mem : ((argsortAsc (colMeans (buildRows t.data.length
        ((classifiedPairs t dict rank).foldl (addInto t.data.length) [])))).reverse).getD j 0 ∈
        (argsortAsc (colMeans (buildRows t.data.length
        ((classifiedPairs t dict rank).foldl (addInto t.data.length) [])))).reverse :=
      getD_mem_of_lt _ 0 j hjlen
    have hi0lt : ((argsortAsc (colMeans (buildRows t.data.length
        ((classifiedPairs t dict rank).foldl (addInto t.data.length) [])))).reverse).getD j 0 <
        ((classifiedPairs t dict rank).foldl (addInto t.data.length) []).length :=
      List.mem_range.mp (hperm.mem_iff.mp hi0mem)
    have htag : ((((argsortAsc (colMeans (buildRows t.data.length
        ((classifiedPairs t dict rank).foldl (addInto t.data.length) [])))).reverse).map
        (fun i => (((classifiedPairs t dict rank).foldl (addInto t.data.length) []).map
          Prod.fst).getD i [])).getD j []) =
        (((classifiedPairs t dict rank).foldl (addInto t.data.length) []).getD
          (((argsortAsc (colMeans (buildRows t.data.length
            ((classifiedPairs t dict rank).foldl (addInto t.data.length) [])))).reverse).getD j 0)
          ([], [])).1 := by
      rw [getD_map_of_lt _ _ [] 0 j hjlen]
      exact getD_map_of_lt _ Prod.fst [] ([], []) _ hi0lt
    have hcolout : colOf ((buildRows t.data.length
        ((classifiedPairs t dict rank).foldl (addInto t.data.length) [])).map
        (fun row => ((argsortAsc (colMeans (buildRows t.data.length
          ((classifiedPairs t dict rank).foldl (addInto t.data.length) [])))).reverse).map
          (fun i => row.getD i 0))) j =
        colOf (buildRows t.data.length
          ((classifiedPairs t dict rank).foldl (addInto t.data.length) []))
          (((argsortAsc (colMeans (buildRows t.data.length
            ((classifiedPairs t dict rank).foldl (addInto t.data.length) [])))).reverse).getD j 0) := by
      unfold colOf
      rw [List.map_map]
      apply List.map_congr_left
      intro row _
      simp only [Function.comp]
      exact getD_map_of_lt _ (fun i => row.getD i 0) 0 0 j hjlen
    have hcolu : colOf (buildRows t.data.length
        ((classifiedPairs t dict rank).foldl (addInto t.data.length) []))
        (((argsortAsc (colMeans (buildRows t.data.length
          ((classifiedPairs t dict rank).foldl (addInto t.data.length) [])))).reverse).getD j 0) =
        (((classifiedPairs t dict rank).foldl (addInto t.data.length) []).getD
          (((argsortAsc (colMeans (buildRows t.data.length
            ((classifiedPairs t dict rank).foldl (addInto t.data.length) [])))).reverse).getD j 0)
          ([], [])).2 :=
      colOf_buildRows _ _ _ hi0lt hlens
    have hqmem : (((classifiedPairs t dict rank).foldl (addInto t.data.length) []).getD
        (((argsortAsc (colMeans (buildRows t.data.length
          ((classifiedPairs t dict rank).foldl (addInto t.data.length) [])))).reverse).getD j 0)
        ([], [])) ∈ ((classifiedPairs t dict rank).foldl (addInto t.data.length) []) :=
      getD_mem_of_lt _ ([], []) _ hi0lt
    have hlkq := lookupA_of_mem_nodup _ hnd _ hqmem
    have hkmem : (((classifiedPairs t dict rank).foldl (addInto t.data.length) []).getD
        (((argsortAsc (colMeans (buildRows t.data.length
          ((classifiedPairs t dict rank).foldl (addInto t.data.length) [])))).reverse).getD j 0)
        ([], [])).1 ∈ keysOf ((classifiedPairs t dict rank).foldl (addInto t.data.length) []) :=
      List.mem_map_of_mem Prod.fst hqmem
    have hlk2 := hlook _ hkmem
    have hval := Option.some.inj (hlkq.symm.trans hlk2)
    rw [hcolout, hcolu, hval, htag]

/-- A 2-sample, 3-OTU count table for the witness of C2. -/
def tblC2 : TaggedTable :=
  ⟨[cs "s1", cs "s2"], [cs "Otu1", cs "Otu2", cs "Otu3"], [[1, 2, 3], [4, 5, 6]]⟩

/-- A genus-deep lineage ending in genus `Alpha`. -/
def linAlpha : Lineage :=
  [⟨cs "Bacteria", 100, none⟩, ⟨cs "P", 100, none⟩, ⟨cs "C", 100, none⟩,
   ⟨cs "O", 100, none⟩, ⟨cs "F", 100, none⟩, ⟨cs "Alpha", 100, none⟩]

/-- A genus-deep lineage ending in genus `Beta`. -/
def linBeta : Lineage :=
  [⟨cs "Bacteria", 100, none⟩, ⟨cs "P", 100, none⟩, ⟨cs "C", 100, none⟩,
   ⟨cs "O", 100, none⟩, ⟨cs "F", 100, none⟩, ⟨cs "Beta", 100, none⟩]

/-- Taxonomy reference for the witness of C2: `Otu1` and `Otu2` resolve
to genus `Alpha`, `Otu3` to genus `Beta`. -/
def dictC2 : Str → Option OtuRec := fun s =>
  if s = cs "Otu1" then some ⟨cs "Otu1", 1, linAlpha⟩
  else if s = cs "Otu2" then some ⟨cs "Otu2", 1, linAlpha⟩
  else if s = cs "Otu3" then some ⟨cs "Otu3", 1, linBeta⟩
  else none

/-- Witness for C2 at the concrete 2-by-3 table grouped at genus. -/
theorem claimC2_witness :
    ∃ out : TaggedTable, groupByTaxonomy tblC2 dictC2 (.byName (cs "genus")) = .ok out ∧
      out.row_tag = tblC2.row_tag ∧
      out.col_tag.Nodup ∧
      (∀ nm, nm ∈ out.col_tag ↔
        nm ∈ (classifiedPairs tblC2 dictC2 (.byName (cs "genus"))).map Prod.fst) ∧
      (classifiedPairs tblC2 dictC2 (.byName (cs "genus")) = [] → out.col_tag = []) ∧
      (∀ j, j < out.col_tag.length →
        colOf out.data j = groupVal tblC2.data.length (out.col_tag.getD j [])
          (classifiedPairs tblC2 dictC2 (.byName (cs "genus")))) :=
  claimC2 tblC2 dictC2 (.byName (cs "genus")) (by decide) (by decide) (by decide)
